import Mathlib

/-!
# Linkpad content pipeline: formal model and verification

Shallow embedding of the two core components of the linkpad repository:

* `src/js/utils/sanitizer.js` — allow-list HTML sanitizer (`sanitize`,
  `cleanNode`, `DANGEROUS_PATTERNS` pre-filter);
* `src/js/utils/compression.js` — URL-safe compression codec (`compress`,
  `decompress`, `arrayBufferToBase64`, `base64ToArrayBuffer`).

Strings are modelled as `List Char` (sequences of Unicode scalar values),
bytes as `Nat` with explicit `% 256` where the source reads from a
`Uint8Array`.  The two platform primitives that are not part of the
repository are treated as follows:

* the gzip stage (`CompressionStream`/`DecompressionStream`) is a parameter
  (`gzipC`/`gzipD : List Nat → List Nat`) of the embedded `compress` and
  `decompress`; round-trip claims carry the gzip round-trip property as an
  explicit hypothesis;
* the HTML parser (`DOMParser`) is a parameter `parse : List Char → DNode`
  of the embedded `sanitize`; universally quantified claims are proved for
  every parser, and concrete scenarios use small parser models that are
  documented as modelled from the spec.

`btoa`/`atob` are embedded following the WHATWG forgiving-base64 algorithms,
and the text encoding stage follows UTF-8.
-/

set_option linter.unusedVariables false

namespace Linkpad

/-! ## DOM trees

A DOM node is either a text node or an element with a tag name, an attribute
list and a forest of children.  Node and forest are a mutual inductive pair so
that all functions over them are structural (and hence kernel-evaluable on
concrete trees). -/

mutual

inductive DNode where
  | text : List Char → DNode
  | elem : List Char → List (List Char × List Char) → DForest → DNode
deriving DecidableEq

inductive DForest where
  | nil : DForest
  | cons : DNode → DForest → DForest
deriving DecidableEq

end

/-- Children of a node, as iterated by `for (const child of node.childNodes)`. -/
def childrenOf : DNode → DForest
  | .text _ => .nil
  | .elem _ _ kids => kids

/-! ## Character helpers -/

/-- ASCII lower-casing of one character, as `String.prototype.toLowerCase`
acts on tag names (tag names are ASCII). -/
def lowerChar (c : Char) : Char :=
  if 'A' ≤ c ∧ c ≤ 'Z' then Char.ofNat (c.toNat + 32) else c

/-- Lower-case a string (list of characters). -/
def lowerStr (s : List Char) : List Char := s.map lowerChar

/-! ## Sanitizer: allow-list (sanitizer.js, `ALLOWED_TAGS`) -/

/-- The fixed tag allow-list from `sanitizer.js`. -/
def ALLOWED_TAGS : List (List Char) :=
  ["p".toList, "br".toList, "div".toList, "span".toList, "b".toList,
   "strong".toList, "i".toList, "em".toList, "u".toList, "h1".toList,
   "h2".toList, "h3".toList, "ul".toList, "ol".toList, "li".toList,
   "blockquote".toList]

/-! ## Sanitizer: recursive tree rewrite (sanitizer.js, `cleanNode`)

`cleanNode(node)` builds a fragment from the processed children of `node`,
appends the fragment to a freshly created `div` container and returns that
container.  Note that both the allowed-tag branch
(`cleanElement.appendChild(cleanNode(child))`) and the disallowed-tag branch
(`fragment.appendChild(cleanNode(child))`) append the returned container
`div` element itself, so the container `div` ends up in the output tree at
every recursion level.  `ALLOWED_ATTRIBUTES` is empty, so the attribute loop
copies nothing and every produced element has an empty attribute list. -/

mutual

/-- The processed children of a node: the contents of the fragment built by
the `for` loop of `cleanNode`. -/
def cleanChildren : DForest → DForest
  | .nil => .nil
  | .cons n rest => .cons (cleanChild n) (cleanChildren rest)

/-- What one child contributes to the fragment in `cleanNode`'s loop. -/
def cleanChild : DNode → DNode
  | .text s => .text s
  | .elem t _attrs kids =>
      if lowerStr t ∈ ALLOWED_TAGS then
        DNode.elem (lowerStr t) []
          (.cons (DNode.elem "div".toList [] (cleanChildren kids)) .nil)
      else
        DNode.elem "div".toList [] (cleanChildren kids)

end

/-- `cleanNode`: returns the container `div` holding the cleaned children. -/
def cleanNode (node : DNode) : DNode :=
  DNode.elem "div".toList [] (cleanChildren (childrenOf node))

/-! ## Sanitized-output invariant -/

mutual

/-- Every element of the forest has an allow-listed tag and no attributes. -/
def sanitizedF : DForest → Bool
  | .nil => true
  | .cons n rest => sanitizedN n && sanitizedF rest

/-- Every element of the node's subtree has an allow-listed tag and no
attributes. -/
def sanitizedN : DNode → Bool
  | .text _ => true
  | .elem t attrs kids =>
      decide (t ∈ ALLOWED_TAGS) && attrs.isEmpty && sanitizedF kids

end

/-! ## Text content -/

mutual

/-- The in-order list of text-node contents of a forest. -/
def textNodesF : DForest → List (List Char)
  | .nil => []
  | .cons n rest => textNodesN n ++ textNodesF rest

/-- The in-order list of text-node contents of a node's subtree. -/
def textNodesN : DNode → List (List Char)
  | .text s => [s]
  | .elem _ _ kids => textNodesF kids

end

/-! ## HTML fragment serialization (`innerHTML`)

Models the WHATWG HTML fragment serialization algorithm on our trees: text
nodes are serialized with `&`, U+00A0, `<`, `>` escaped; elements serialize
their tag and attributes, and void elements emit no children and no end
tag. -/

/-- The HTML void elements (serialize with no end tag and no children). -/
def VOID_TAGS : List (List Char) :=
  ["area".toList, "base".toList, "br".toList, "col".toList, "embed".toList,
   "hr".toList, "img".toList, "input".toList, "link".toList, "meta".toList,
   "param".toList, "source".toList, "track".toList, "wbr".toList]

/-- Escape one character of a text node for serialization. -/
def escTextChar (c : Char) : List Char :=
  if c = '&' then "&amp;".toList
  else if c = Char.ofNat 0xA0 then "&nbsp;".toList
  else if c = '<' then "&lt;".toList
  else if c = '>' then "&gt;".toList
  else [c]

/-- Serialize the characters of a text node. -/
def escText (s : List Char) : List Char := s.flatMap escTextChar

/-- Escape one character of an attribute value for serialization. -/
def escAttrChar (c : Char) : List Char :=
  if c = '&' then "&amp;".toList
  else if c = Char.ofNat 0xA0 then "&nbsp;".toList
  else if c = '"' then "&quot;".toList
  else [c]

/-- Serialize one attribute as ` name="value"`. -/
def serializeAttr (a : List Char × List Char) : List Char :=
  ' ' :: a.1 ++ '=' :: '"' :: (a.2.flatMap escAttrChar) ++ ['"']

mutual

/-- Serialize a forest of nodes (the `innerHTML` of their parent). -/
def serializeF : DForest → List Char
  | .nil => []
  | .cons n rest => serializeN n ++ serializeF rest

/-- Serialize one node. -/
def serializeN : DNode → List Char
  | .text s => escText s
  | .elem t attrs kids =>
      '<' :: t ++ attrs.flatMap serializeAttr ++ ['>'] ++
        (if t ∈ VOID_TAGS then []
         else serializeF kids ++ '<' :: '/' :: t ++ ['>'])

end

/-! ## Dangerous-pattern pre-filter (sanitizer.js, `DANGEROUS_PATTERNS`)

`sanitize` first deletes, in order, every match of

1. `/<script\b[^<]*(?:(?!<\/script>)<[^<]*)*<\/script>/gi`
2. `/javascript:/gi`
3. `/on\w+\s*=/gi`
4. `/data:/gi`
5. `/vbscript:/gi`

Each is modelled as a left-to-right, non-overlapping scan that removes each
match and continues after it (the semantics of a global `String.replace`
with an empty replacement).  The scans use the input length as structural
fuel; one unit of fuel is spent per scan position, so the fuel never runs
out on the lists the scans are applied to. -/

/-- JavaScript `\w` (word character): `[A-Za-z0-9_]`. -/
def isWordChar (c : Char) : Bool :=
  ('A' ≤ c && c ≤ 'Z') || ('a' ≤ c && c ≤ 'z') || ('0' ≤ c && c ≤ '9') || c = '_'

/-- JavaScript `\s` (whitespace character). -/
def isJsSpace (c : Char) : Bool :=
  c = ' ' || c = '\t' || c = '\n' || c = '\r' ||
  c = Char.ofNat 0x0B || c = Char.ofNat 0x0C || c = Char.ofNat 0xA0 ||
  c = Char.ofNat 0x1680 ||
  (Char.ofNat 0x2000 ≤ c && c ≤ Char.ofNat 0x200A) ||
  c = Char.ofNat 0x2028 || c = Char.ofNat 0x2029 || c = Char.ofNat 0x202F ||
  c = Char.ofNat 0x205F || c = Char.ofNat 0x3000 || c = Char.ofNat 0xFEFF

/-- Does `s` start with `pat`, comparing case-insensitively (ASCII)? -/
def startsWithCI : List Char → List Char → Bool
  | [], _ => true
  | _ :: _, [] => false
  | p :: ps, c :: cs => lowerChar p = lowerChar c && startsWithCI ps cs

/-- Drop everything up to and including the first case-insensitive
occurrence of `</script>`; `none` if there is none.  This is how the
script-block regex consumes its body: the `[^<]*` / `(?!<\/script>)<[^<]*`
loop accepts every character until the first closing `</script>`. -/
def dropThroughCloseScript : List Char → Option (List Char)
  | [] => none
  | c :: rest =>
      if startsWithCI "</script>".toList (c :: rest) then
        some ((c :: rest).drop 9)
      else
        dropThroughCloseScript rest

/-- One global pass of the script-block regex: a match starts at a
case-insensitive `<script` followed by a non-word character (the `\b`), and
extends through the first subsequent `</script>`. -/
def replaceScriptAux : Nat → List Char → List Char
  | 0, s => s
  | _ + 1, [] => []
  | fuel + 1, c :: rest =>
      if startsWithCI "<script".toList (c :: rest) &&
          (match (c :: rest).drop 7 with
           | [] => false
           | d :: _ => !isWordChar d) then
        match dropThroughCloseScript ((c :: rest).drop 7) with
        | some rem => replaceScriptAux fuel rem
        | none => c :: replaceScriptAux fuel rest
      else
        c :: replaceScriptAux fuel rest

/-- `s.replace(/<script\b[^<]*(?:(?!<\/script>)<[^<]*)*<\/script>/gi, '')`. -/
def replaceScriptBlocks (s : List Char) : List Char :=
  replaceScriptAux s.length s

/-- Global case-insensitive literal deletion: `s.replace(/pat/gi, '')` for a
literal pattern `pat`. -/
def replaceLiteralCI (pat : List Char) : Nat → List Char → List Char
  | 0, s => s
  | _ + 1, [] => []
  | fuel + 1, c :: rest =>
      if startsWithCI pat (c :: rest) && !pat.isEmpty then
        replaceLiteralCI pat fuel ((c :: rest).drop pat.length)
      else
        c :: replaceLiteralCI pat fuel rest

/-- Length of a match of `on\w+\s*=` starting at `s`, if any.  Backtracking
cannot help this pattern (shrinking `\w+` leaves a word character where `=`
is required), so the greedy reading is exact. -/
def onPatternMatchLen (s : List Char) : Option Nat :=
  match s with
  | o :: n :: rest =>
      if lowerChar o = 'o' && lowerChar n = 'n' then
        let w := rest.takeWhile isWordChar
        if w.isEmpty then none
        else
          let afterW := rest.drop w.length
          let sp := afterW.takeWhile isJsSpace
          match afterW.drop sp.length with
          | '=' :: _ => some (2 + w.length + sp.length + 1)
          | _ => none
      else none
  | _ => none

/-- `s.replace(/on\w+\s*=/gi, '')`. -/
def replaceOnPatternAux : Nat → List Char → List Char
  | 0, s => s
  | _ + 1, [] => []
  | fuel + 1, c :: rest =>
      match onPatternMatchLen (c :: rest) with
      | some k => replaceOnPatternAux fuel ((c :: rest).drop k)
      | none => c :: replaceOnPatternAux fuel rest

/-- The five-pattern pre-filter pass of `sanitize`, applied in source
order. -/
def prefilter (s : List Char) : List Char :=
  let s1 := replaceScriptBlocks s
  let s2 := replaceLiteralCI "javascript:".toList s1.length s1
  let s3 := replaceOnPatternAux s2.length s2
  let s4 := replaceLiteralCI "data:".toList s3.length s3
  replaceLiteralCI "vbscript:".toList s4.length s4

/-! ## sanitize (sanitizer.js, `sanitize`)

`parse` stands for `new DOMParser().parseFromString(cleaned, 'text/html')`
followed by taking `doc.body`: it maps the pre-filtered markup to the body
node of the recovered tree.  The return value is
`cleanNode(doc.body).innerHTML`, i.e. the serialization of the children of
the returned container. -/

/-- `sanitize` on an actual string input. -/
def sanitizeStr (parse : List Char → DNode) (html : List Char) : List Char :=
  if html = [] then []
  else
    let cleaned := prefilter html
    let body := parse cleaned
    serializeF (childrenOf (cleanNode body))

/-- A JavaScript value arriving at `sanitize`'s parameter: a string, `null`,
`undefined`, or a non-string value. -/
inductive JsValue where
  | str : List Char → JsValue
  | nullV : JsValue
  | undefV : JsValue
  | otherV : JsValue
deriving DecidableEq

/-- `sanitize` including its input guard
`if (!html || typeof html !== 'string') return ''`: `null`, `undefined` and
non-string values (and the empty string, which is falsy) short-circuit to
the empty string. -/
def sanitize (parse : List Char → DNode) : JsValue → List Char
  | .str s => sanitizeStr parse s
  | .nullV => []
  | .undefV => []
  | .otherV => []

/-! ## UTF-8 (`TextEncoder` / the text decoding in `decompress`)

`compress` turns the input string into bytes with `new TextEncoder()`
(UTF-8); `decompress` reads the decompressed bytes back as text.  The
decoder is the strict UTF-8 decoder returning `none` on malformed input
(shortest-form encoding enforced, surrogates and out-of-range values
rejected); the round-trip claims only exercise it on valid encoder
output. -/

/-- UTF-8 encoding of one Unicode scalar value. -/
def utf8EncodeChar (c : Char) : List Nat :=
  if c.toNat < 0x80 then [c.toNat]
  else if c.toNat < 0x800 then [0xC0 + c.toNat / 64, 0x80 + c.toNat % 64]
  else if c.toNat < 0x10000 then
    [0xE0 + c.toNat / 4096, 0x80 + (c.toNat / 64) % 64, 0x80 + c.toNat % 64]
  else
    [0xF0 + c.toNat / 262144, 0x80 + (c.toNat / 4096) % 64,
     0x80 + (c.toNat / 64) % 64, 0x80 + c.toNat % 64]

/-- UTF-8 encoding of a string (`TextEncoder.prototype.encode`). -/
def utf8Encode (s : List Char) : List Nat := s.flatMap utf8EncodeChar

/-- Is `b` a UTF-8 continuation byte? -/
def isCont (b : Nat) : Bool := 0x80 ≤ b && b < 0xC0

/-- Decode one UTF-8-encoded scalar value from the front of a byte list,
returning it together with the remaining bytes (strict: shortest form
enforced, surrogates and out-of-range values rejected). -/
def utf8DecodeOne : List Nat → Option (Char × List Nat)
  | [] => none
  | b :: rest =>
      if b < 0x80 then some (Char.ofNat b, rest)
      else if b < 0xC2 then none
      else if b < 0xE0 then
        match rest with
        | b1 :: r =>
            if isCont b1 then
              some (Char.ofNat ((b - 0xC0) * 64 + (b1 - 0x80)), r)
            else none
        | _ => none
      else if b < 0xF0 then
        match rest with
        | b1 :: b2 :: r =>
            if isCont b1 && isCont b2 &&
                0x800 ≤ (b - 0xE0) * 4096 + (b1 - 0x80) * 64 + (b2 - 0x80) &&
                ((b - 0xE0) * 4096 + (b1 - 0x80) * 64 + (b2 - 0x80) < 0xD800 ||
                  0xE000 ≤ (b - 0xE0) * 4096 + (b1 - 0x80) * 64 + (b2 - 0x80)) then
              some (Char.ofNat ((b - 0xE0) * 4096 + (b1 - 0x80) * 64 + (b2 - 0x80)), r)
            else none
        | _ => none
      else if b < 0xF5 then
        match rest with
        | b1 :: b2 :: b3 :: r =>
            if isCont b1 && isCont b2 && isCont b3 &&
                0x10000 ≤ (b - 0xF0) * 262144 + (b1 - 0x80) * 4096 +
                  (b2 - 0x80) * 64 + (b3 - 0x80) &&
                (b - 0xF0) * 262144 + (b1 - 0x80) * 4096 +
                  (b2 - 0x80) * 64 + (b3 - 0x80) < 0x110000 then
              some (Char.ofNat ((b - 0xF0) * 262144 + (b1 - 0x80) * 4096 +
                (b2 - 0x80) * 64 + (b3 - 0x80)), r)
            else none
        | _ => none
      else none

/-- Strict UTF-8 decoding, one scalar at a time; the fuel is spent one unit
per decoded character, and a character consumes at least one byte, so a fuel
of the byte-list length always suffices. -/
def utf8DecodeAux : Nat → List Nat → Option (List Char)
  | _, [] => some []
  | 0, _ :: _ => none
  | fuel + 1, b :: rest =>
      match utf8DecodeOne (b :: rest) with
      | none => none
      | some (c, r) => (utf8DecodeAux fuel r).map (c :: ·)

/-- Strict UTF-8 decoding of a byte list. -/
def utf8Decode (l : List Nat) : Option (List Char) := utf8DecodeAux l.length l

/-- Remove a leading UTF-8 byte-order mark (`EF BB BF`), as the WHATWG
"UTF-8 decode" algorithm used by `Response.prototype.text` does before
decoding. -/
def stripBom (l : List Nat) : List Nat :=
  match l with
  | a :: b :: c :: rest =>
      if a = 0xEF ∧ b = 0xBB ∧ c = 0xBF then rest else l
  | _ => l

/-! ## Base64 (`btoa` / `atob`)

`arrayBufferToBase64` builds a binary string whose character codes are the
bytes of the `Uint8Array` and applies `btoa`; `base64ToArrayBuffer` applies
`atob` and reads the character codes back.  We embed the two compositions
directly on byte lists: `btoa` is standard base64 with padding, `atob` is
the WHATWG forgiving-base64 decode. -/

/-- The standard base64 alphabet. -/
def b64Alphabet : List Char :=
  "ABCDEFGHIJKLMNOPQRSTUVWXYZabcdefghijklmnopqrstuvwxyz0123456789+/".toList

/-- The base64 character with index `i < 64`. -/
def b64Char (i : Nat) : Char := b64Alphabet.getD i 'A'

/-- The index of a base64 character (64 when not in the alphabet). -/
def b64Index (c : Char) : Nat := b64Alphabet.indexOf c

/-- Is `c` in the base64 alphabet? -/
def isB64Char (c : Char) : Bool := decide (c ∈ b64Alphabet)

/-- Unpadded base64 encoding: 3 bytes to 4 characters, with a 2- or
3-character final group for 1 or 2 trailing bytes. -/
def b64EncodeCore : List Nat → List Char
  | a :: b :: c :: rest =>
      b64Char (a / 4) :: b64Char ((a % 4) * 16 + b / 16) ::
      b64Char ((b % 16) * 4 + c / 64) :: b64Char (c % 64) ::
      b64EncodeCore rest
  | [a, b] =>
      [b64Char (a / 4), b64Char ((a % 4) * 16 + b / 16), b64Char ((b % 16) * 4)]
  | [a] => [b64Char (a / 4), b64Char ((a % 4) * 16)]
  | [] => []

/-- `btoa` on a binary string holding the given bytes: unpadded base64 plus
`=` padding to a multiple of 4 characters. -/
def btoaBytes (bytes : List Nat) : List Char :=
  b64EncodeCore bytes ++ List.replicate ((3 - bytes.length % 3) % 3) '='

/-- Decode base64 indices, 4 at a time; a final group of 2 or 3 indices
yields 1 or 2 bytes with the leftover bits discarded.  A final group of a
single index cannot arise after the length check of forgiving-base64. -/
def b64DecodeCore : List Nat → Option (List Nat)
  | i0 :: i1 :: i2 :: i3 :: rest =>
      (b64DecodeCore rest).map
        (fun bs => (i0 * 4 + i1 / 16) :: ((i1 % 16) * 16 + i2 / 4) ::
          ((i2 % 4) * 64 + i3) :: bs)
  | [i0, i1, i2] => some [i0 * 4 + i1 / 16, (i1 % 16) * 16 + i2 / 4]
  | [i0, i1] => some [i0 * 4 + i1 / 16]
  | [_] => none
  | [] => some []

/-- ASCII whitespace, removed by forgiving-base64 decode. -/
def isAsciiWs (c : Char) : Bool :=
  c = ' ' || c = '\t' || c = '\n' || c = '\r' || c = Char.ofNat 0x0C

/-- Step 2 of forgiving-base64 decode: if the data ends with one or two `=`
code points, remove them. -/
def dropTrailingEq (s : List Char) : List Char :=
  match s.reverse with
  | '=' :: '=' :: r => r.reverse
  | '=' :: r => r.reverse
  | _ => s

/-- `atob` on a string, returning the byte values of the resulting binary
string (WHATWG forgiving-base64 decode). -/
def atobBytes (s : List Char) : Option (List Nat) :=
  let d1 := s.filter (fun c => !isAsciiWs c)
  let d2 := if d1.length % 4 = 0 then dropTrailingEq d1 else d1
  if d2.length % 4 = 1 then none
  else if d2.all isB64Char then b64DecodeCore (d2.map b64Index)
  else none

/-- `arrayBufferToBase64(bytes)`: the binary string has the bytes of the
`Uint8Array` as character codes (hence `% 256`), and `btoa` encodes it. -/
def arrayBufferToBase64 (bytes : List Nat) : List Char :=
  btoaBytes (bytes.map (· % 256))

/-- `base64ToArrayBuffer(base64)`: `atob` then `charCodeAt` on every
position of the binary string. -/
def base64ToArrayBuffer (base64 : List Char) : Option (List Nat) :=
  atobBytes base64

/-! ## compress / decompress (compression.js) -/

/-- The URL-safe transliteration `+` to `-` of `compress`. -/
def remapPlus (c : Char) : Char := if c = '+' then '-' else c

/-- The URL-safe transliteration `/` to `_` of `compress`. -/
def remapSlash (c : Char) : Char := if c = '/' then '_' else c

/-- `base64.replace(/=+$/, '')`: strip the maximal run of trailing `=`. -/
def stripTrailEq (s : List Char) : List Char :=
  (s.reverse.dropWhile (· = '=')).reverse

/-- `compress(text)`, with the gzip stage (`CompressionStream('gzip')`)
abstracted as `gzipC`; reading the compressed stream into a `Uint8Array`
yields bytes, hence the `% 256`. -/
def compress (gzipC : List Nat → List Nat) (text : List Char) : List Char :=
  if text = [] then []
  else
    let data := utf8Encode text
    let compressedBytes := (gzipC data).map (· % 256)
    let base64 := arrayBufferToBase64 compressedBytes
    stripTrailEq ((base64.map remapPlus).map remapSlash)

/-- The `-` to `+` restoration of `decompress`. -/
def unremapDash (c : Char) : Char := if c = '-' then '+' else c

/-- The `_` to `/` restoration of `decompress`. -/
def unremapUnderscore (c : Char) : Char := if c = '_' then '/' else c

/-- `while (standardBase64.length % 4) standardBase64 += '='`. -/
def padTo4 (s : List Char) : List Char :=
  s ++ List.replicate ((4 - s.length % 4) % 4) '='

/-- The alphabet-restoration and base64-decoding stage of `decompress`
(everything before the gzip stage): restore the standard alphabet, re-append
padding, decode. -/
def decodeTokenBytes (base64 : List Char) : Option (List Nat) :=
  base64ToArrayBuffer (padTo4 ((base64.map unremapDash).map unremapUnderscore))

/-- `decompress(base64)`, with the gzip stage
(`DecompressionStream('gzip')`) abstracted as `gzipD`; `none` models a
thrown `Failed to decompress content` error.  The final text stage is
`new Response(stream).text()`, which performs the WHATWG "UTF-8 decode":
a leading byte-order mark is stripped before decoding. -/
def decompress (gzipD : List Nat → List Nat) (base64 : List Char) :
    Option (List Char) :=
  if base64 = [] then some []
  else
    match decodeTokenBytes base64 with
    | none => none
    | some compressedBytes =>
        utf8Decode (stripBom ((gzipD compressedBytes).map (· % 256)))

/-- The URL-fragment-safe token alphabet of the spec. -/
def safeChar (c : Char) : Bool :=
  ('A' ≤ c && c ≤ 'Z') || ('a' ≤ c && c ≤ 'z') || ('0' ≤ c && c ≤ '9') ||
  c = '-' || c = '_'

/-! ## Substring machinery for safety claims -/

/-- Does `s` start with `pat` (exact characters)? -/
def startsWithL : List Char → List Char → Bool
  | [], _ => true
  | _ :: _, [] => false
  | p :: ps, c :: cs => p = c && startsWithL ps cs

/-- Does `pat` occur as a contiguous substring of `s`? -/
def hasSub : List Char → List Char → Bool
  | pat, [] => startsWithL pat []
  | pat, c :: rest => startsWithL pat (c :: rest) || hasSub pat rest

/-- Every `<` in `s` is followed by at least two characters inside `s`, and
they do not spell (the start of) `script`: rejects the window `<sc`. -/
def guarded : List Char → Bool
  | [] => true
  | x :: r =>
      if x = '<' then
        match r with
        | y :: z :: _ => !(y = 's' && z = 'c') && guarded r
        | _ => false
      else guarded r

/-! ## Modelled parsers

The HTML parser (`DOMParser`, step 2 of the sanitizer algorithm) is not part
of the repository; concrete scenarios use the following small models of its
documented behaviour. -/

/-- Modelled from the spec: the standards-compliant tolerant markup parser
(`DOMParser`, `text/html`), restricted to inputs that contain no markup
delimiters; a standards parser turns plain text into a single text node
under `body`. -/
def flatParse (s : List Char) : DNode :=
  DNode.elem "body".toList [] (.cons (.text s) .nil)

/-- Modelled from the spec: the standards-compliant tolerant markup parser
on the two markup strings arising in the idempotence counterexample.  A
standards parser maps `<b>hi</b>` to `body > b > #text hi` and
`<b><div>hi</div></b>` to `body > b > div > #text hi`; other inputs are not
exercised and map to an empty body. -/
def parseCex6 (s : List Char) : DNode :=
  if s = "<b>hi</b>".toList then
    DNode.elem "body".toList []
      (.cons (.elem "b".toList [] (.cons (.text "hi".toList) .nil)) .nil)
  else if s = "<b><div>hi</div></b>".toList then
    DNode.elem "body".toList []
      (.cons (.elem "b".toList []
        (.cons (.elem "div".toList [] (.cons (.text "hi".toList) .nil)) .nil))
        .nil)
  else DNode.elem "body".toList [] .nil

/-- Modelled from the spec: the standards-compliant tolerant markup parser
on the table scenario input.  A standards parser inserts the implied
`tbody`, giving `body > table > tbody > tr > td > #text cell`; other inputs
are not exercised and map to an empty body. -/
def parseTable (s : List Char) : DNode :=
  if s = "<table><tr><td>cell</td></tr></table>".toList then
    DNode.elem "body".toList []
      (.cons (.elem "table".toList []
        (.cons (.elem "tbody".toList []
          (.cons (.elem "tr".toList []
            (.cons (.elem "td".toList []
              (.cons (.text "cell".toList) .nil)) .nil)) .nil)) .nil)) .nil)
  else DNode.elem "body".toList [] .nil

/-! ## Helper lemmas -/

/-- `Char.toNat` is injective. -/
theorem char_toNat_inj {c d : Char} (h : c.toNat = d.toNat) : c = d := by
  have hv : c.val = d.val := UInt32.toNat.inj h
  exact Char.eq_of_val_eq hv

/-- A list all of whose elements are bytes is unchanged by `% 256`. -/
theorem map_mod256_eq_self {l : List Nat} (h : ∀ b ∈ l, b < 256) :
    l.map (· % 256) = l := by
  induction l with
  | nil => rfl
  | cons a as ih =>
      have ha : a < 256 := h a (by simp)
      simp only [List.map_cons, Nat.mod_eq_of_lt ha,
        ih (fun b hb => h b (by simp [hb]))]

/-! ## UTF-8 round trip -/

/-- Every byte emitted by the UTF-8 encoder is below 256. -/
theorem utf8EncodeChar_lt_256 (c : Char) : ∀ b ∈ utf8EncodeChar c, b < 256 := by
  have hbr : c.toNat = c.val.toNat := rfl
  have hv : c.toNat < 0x110000 := by rcases c.valid with h | h <;> omega
  intro b hbm
  unfold utf8EncodeChar at hbm
  split_ifs at hbm <;> simp at hbm <;> omega

/-- Every byte of an encoded string is below 256. -/
theorem utf8Encode_lt_256 (s : List Char) : ∀ b ∈ utf8Encode s, b < 256 := by
  intro b hb
  simp only [utf8Encode, List.mem_flatMap] at hb
  obtain ⟨c, _, hc⟩ := hb
  exact utf8EncodeChar_lt_256 c b hc

/-- `utf8DecodeOne` strictly shortens the byte list. -/
theorem utf8DecodeOne_shorter {l : List Nat} {c : Char} {r : List Nat}
    (h : utf8DecodeOne l = some (c, r)) : r.length < l.length := by
  match l with
  | [] => simp [utf8DecodeOne] at h
  | b :: rest =>
      unfold utf8DecodeOne at h
      repeat' split at h
      all_goals simp_all
      all_goals omega

/-- `utf8DecodeAux` on the empty list is `some []` for every fuel. -/
theorem utf8DecodeAux_nil (f : Nat) : utf8DecodeAux f [] = some [] := by
  cases f <;> rfl

/-- Any sufficient fuel computes `utf8Decode`. -/
theorem utf8DecodeAux_eq :
    ∀ f (l : List Nat), l.length ≤ f → utf8DecodeAux f l = utf8DecodeAux l.length l := by
  intro f
  induction f using Nat.strong_induction_on with
  | _ f IH =>
      intro l hl
      match f, l with
      | _, [] => rw [utf8DecodeAux_nil, utf8DecodeAux_nil]
      | 0, b :: rest => simp at hl
      | g + 1, b :: rest =>
          simp only [utf8DecodeAux, List.length_cons]
          cases hdo : utf8DecodeOne (b :: rest) with
          | none => rfl
          | some cr =>
              obtain ⟨c, r⟩ := cr
              have hsh := utf8DecodeOne_shorter hdo
              simp only [List.length_cons] at hsh hl
              dsimp only
              rw [IH g (by omega) r (by omega),
                  IH rest.length (by omega) r (by omega)]

/-- One-step unfolding of `utf8Decode` on a non-empty byte list. -/
theorem utf8Decode_cons (b : Nat) (rest : List Nat) :
    utf8Decode (b :: rest) =
      match utf8DecodeOne (b :: rest) with
      | none => none
      | some (c, r) => (utf8Decode r).map (c :: ·) := by
  show utf8DecodeAux (b :: rest).length (b :: rest) = _
  simp only [List.length_cons, utf8DecodeAux]
  cases hdo : utf8DecodeOne (b :: rest) with
  | none => rfl
  | some cr =>
      obtain ⟨c, r⟩ := cr
      have hsh := utf8DecodeOne_shorter hdo
      simp only [List.length_cons] at hsh
      dsimp only
      rw [utf8DecodeAux_eq rest.length r (by omega)]
      rfl

/-- The one-scalar decoder inverts the one-scalar encoder, leaving the rest
of the bytes untouched. -/
theorem utf8DecodeOne_encodeChar (c : Char) (rest : List Nat) :
    utf8DecodeOne (utf8EncodeChar c ++ rest) = some (c, rest) := by
  have hbr : c.toNat = c.val.toNat := rfl
  have hlt : c.toNat < 0x110000 := by rcases c.valid with h | h <;> omega
  have hns : c.toNat < 0xD800 ∨ 0xE000 ≤ c.toNat := by
    rcases c.valid with h | h <;> omega
  have hofNat := Char.ofNat_toNat c
  unfold utf8EncodeChar
  by_cases h1 : c.toNat < 0x80
  · simp only [if_pos h1, List.cons_append, List.nil_append]
    unfold utf8DecodeOne
    simp [h1, hofNat]
  · by_cases h2 : c.toNat < 0x800
    · simp only [if_neg h1, if_pos h2, List.cons_append, List.nil_append]
      unfold utf8DecodeOne
      have hb0 : ¬ (0xC0 + c.toNat / 64 < 0x80) := by omega
      have hb0' : ¬ (0xC0 + c.toNat / 64 < 0xC2) := by omega
      have hb0'' : 0xC0 + c.toNat / 64 < 0xE0 := by omega
      have hc1 : isCont (0x80 + c.toNat % 64) = true := by
        simp [isCont]; omega
      have hval : (0xC0 + c.toNat / 64 - 0xC0) * 64 +
          (0x80 + c.toNat % 64 - 0x80) = c.toNat := by omega
      have hval2 : c.toNat / 64 * 64 + c.toNat % 64 = c.toNat := by omega
      simp [hb0, hb0', hb0'', hc1, hval, hval2, hofNat]
    · by_cases h3 : c.toNat < 0x10000
      · simp only [if_neg h1, if_neg h2, if_pos h3, List.cons_append,
          List.nil_append]
        unfold utf8DecodeOne
        have hb0 : ¬ (0xE0 + c.toNat / 4096 < 0x80) := by omega
        have hb0' : ¬ (0xE0 + c.toNat / 4096 < 0xC2) := by omega
        have hb0'' : ¬ (0xE0 + c.toNat / 4096 < 0xE0) := by omega
        have hb0''' : 0xE0 + c.toNat / 4096 < 0xF0 := by omega
        have hc1 : isCont (0x80 + c.toNat / 64 % 64) = true := by
          simp [isCont]; omega
        have hc2 : isCont (0x80 + c.toNat % 64) = true := by
          simp [isCont]; omega
        have hval : (0xE0 + c.toNat / 4096 - 0xE0) * 4096 +
            (0x80 + c.toNat / 64 % 64 - 0x80) * 64 +
            (0x80 + c.toNat % 64 - 0x80) = c.toNat := by omega
        simp only [if_neg hb0, if_neg hb0', if_neg hb0'', if_pos hb0''']
        rw [hval]
        have hcond : (isCont (0x80 + c.toNat / 64 % 64) &&
            isCont (0x80 + c.toNat % 64) && decide (0x800 ≤ c.toNat) &&
            (decide (c.toNat < 0xD800) || decide (0xE000 ≤ c.toNat))) = true := by
          rw [hc1, hc2]
          simp only [Bool.true_and]
          rcases hns with h | h
          · simp [h]; omega
          · simp [h]; omega
        rw [hcond]
        simp [hofNat]
      · simp only [if_neg h1, if_neg h2, if_neg h3, List.cons_append,
          List.nil_append]
        unfold utf8DecodeOne
        have hb0 : ¬ (0xF0 + c.toNat / 262144 < 0x80) := by omega
        have hb0' : ¬ (0xF0 + c.toNat / 262144 < 0xC2) := by omega
        have hb0'' : ¬ (0xF0 + c.toNat / 262144 < 0xE0) := by omega
        have hb0''' : ¬ (0xF0 + c.toNat / 262144 < 0xF0) := by omega
        have hb0'''' : 0xF0 + c.toNat / 262144 < 0xF5 := by omega
        have hc1 : isCont (0x80 + c.toNat / 4096 % 64) = true := by
          simp [isCont]; omega
        have hc2 : isCont (0x80 + c.toNat / 64 % 64) = true := by
          simp [isCont]; omega
        have hc3 : isCont (0x80 + c.toNat % 64) = true := by
          simp [isCont]; omega
        have hval : (0xF0 + c.toNat / 262144 - 0xF0) * 262144 +
            (0x80 + c.toNat / 4096 % 64 - 0x80) * 4096 +
            (0x80 + c.toNat / 64 % 64 - 0x80) * 64 +
            (0x80 + c.toNat % 64 - 0x80) = c.toNat := by omega
        simp only [if_neg hb0, if_neg hb0', if_neg hb0'', if_neg hb0''',
          if_pos hb0'''']
        rw [hval]
        have hcond : (isCont (0x80 + c.toNat / 4096 % 64) &&
            isCont (0x80 + c.toNat / 64 % 64) && isCont (0x80 + c.toNat % 64) &&
            decide (0x10000 ≤ c.toNat) && decide (c.toNat < 0x110000)) = true := by
          rw [hc1, hc2, hc3]
          simp only [Bool.true_and]
          simp
          omega
        rw [hcond]
        simp [hofNat]

/-- The UTF-8 encoder never emits an empty byte list. -/
theorem utf8EncodeChar_ne_nil (c : Char) : utf8EncodeChar c ≠ [] := by
  unfold utf8EncodeChar
  split_ifs <;> simp

/-- Decoding an encoded character prepended to any byte list peels off that
character. -/
theorem utf8Decode_encodeChar (c : Char) (rest : List Nat) :
    utf8Decode (utf8EncodeChar c ++ rest) = (utf8Decode rest).map (c :: ·) := by
  obtain ⟨b, bs, henc⟩ : ∃ b bs, utf8EncodeChar c = b :: bs := by
    cases h : utf8EncodeChar c with
    | nil => exact absurd h (utf8EncodeChar_ne_nil c)
    | cons x xs => exact ⟨x, xs, rfl⟩
  have hdo : utf8DecodeOne (b :: (bs ++ rest)) = some (c, rest) := by
    have hh := utf8DecodeOne_encodeChar c rest
    rw [henc] at hh
    simpa using hh
  calc utf8Decode (utf8EncodeChar c ++ rest)
      = utf8Decode (b :: (bs ++ rest)) := by rw [henc]; rfl
    _ = (utf8Decode rest).map (c :: ·) := by rw [utf8Decode_cons, hdo]

/-- The strict UTF-8 decoder inverts the encoder. -/
theorem utf8Decode_utf8Encode (s : List Char) :
    utf8Decode (utf8Encode s) = some s := by
  induction s with
  | nil => rfl
  | cons c cs ih =>
      have henc : utf8Encode (c :: cs) = utf8EncodeChar c ++ utf8Encode cs := by
        simp [utf8Encode]
      rw [henc, utf8Decode_encodeChar, ih]
      rfl

/-- `stripBom` is the identity on lists not starting with `EF BB BF`. -/
theorem stripBom_ne {l : List Nat}
    (h : ∀ rest, l ≠ 0xEF :: 0xBB :: 0xBF :: rest) : stripBom l = l := by
  rcases l with _ | ⟨a, _ | ⟨b, _ | ⟨c, rest⟩⟩⟩
  · rfl
  · rfl
  · rfl
  · show (if a = 0xEF ∧ b = 0xBB ∧ c = 0xBF then rest
      else a :: b :: c :: rest) = a :: b :: c :: rest
    split_ifs with hc
    · obtain ⟨ha, hb, hcc⟩ := hc
      have heq : a :: b :: c :: rest = 0xEF :: 0xBB :: 0xBF :: rest := by
        rw [ha, hb, hcc]
      exact absurd heq (h rest)
    · rfl

/-- The UTF-8 encoding of a string starts with the byte-order-mark bytes
`EF BB BF` only when the string starts with U+FEFF, so `stripBom` leaves
the encoding of every other string unchanged. -/
theorem stripBom_utf8Encode {x : List Char}
    (h : x.head? ≠ some (Char.ofNat 0xFEFF)) :
    stripBom (utf8Encode x) = utf8Encode x := by
  apply stripBom_ne
  intro rest heq
  cases x with
  | nil => simp [utf8Encode] at heq
  | cons c cs =>
      have hc : c ≠ Char.ofNat 0xFEFF := by
        simp only [List.head?_cons, ne_eq, Option.some.injEq] at h
        exact h
      have henc : utf8Encode (c :: cs) = utf8EncodeChar c ++ utf8Encode cs := by
        simp [utf8Encode]
      rw [henc] at heq
      have hbr : c.toNat = c.val.toNat := rfl
      unfold utf8EncodeChar at heq
      by_cases h1 : c.toNat < 0x80
      · rw [if_pos h1] at heq
        rw [List.singleton_append] at heq
        injection heq with h2 _
        omega
      · by_cases h2 : c.toNat < 0x800
        · rw [if_neg h1, if_pos h2] at heq
          simp only [List.cons_append, List.nil_append] at heq
          injection heq with ha _
          omega
        · by_cases h3 : c.toNat < 0x10000
          · rw [if_neg h1, if_neg h2, if_pos h3] at heq
            simp only [List.cons_append, List.nil_append] at heq
            injection heq with ha heq2
            injection heq2 with hb heq3
            injection heq3 with hcv _
            have hn : c.toNat = 0xFEFF := by omega
            exact hc (char_toNat_inj (by rw [hn]; decide))
          · rw [if_neg h1, if_neg h2, if_neg h3] at heq
            simp only [List.cons_append, List.nil_append] at heq
            injection heq with ha _
            omega

/-! ## Base64 round trip -/

/-- Facts about every base64 alphabet character, by enumeration: it is in
the alphabet, it is not `=`, not ASCII whitespace, not `-`, not `_`, and
`b64Index` inverts `b64Char`. -/
theorem b64Char_spec : ∀ i, i < 64 →
    isB64Char (b64Char i) = true ∧ b64Char i ≠ '=' ∧
    isAsciiWs (b64Char i) = false ∧ b64Index (b64Char i) = i := by decide

/-- Every character produced by the unpadded base64 encoder of a byte list
is an alphabet character `b64Char i`, `i < 64`. -/
theorem b64EncodeCore_chars :
    ∀ (bs : List Nat), (∀ b ∈ bs, b < 256) →
      ∀ c ∈ b64EncodeCore bs, ∃ i, i < 64 ∧ c = b64Char i
  | [], _, c, hc => by simp [b64EncodeCore] at hc
  | [a], h, c, hc => by
      have ha : a < 256 := h a (by simp)
      simp only [b64EncodeCore, List.mem_cons, List.not_mem_nil, or_false] at hc
      rcases hc with hc | hc
      · exact ⟨a / 4, by omega, hc⟩
      · exact ⟨(a % 4) * 16, by omega, hc⟩
  | [a, b], h, c, hc => by
      have ha : a < 256 := h a (by simp)
      have hb : b < 256 := h b (by simp)
      simp only [b64EncodeCore, List.mem_cons, List.not_mem_nil, or_false] at hc
      rcases hc with hc | hc | hc
      · exact ⟨a / 4, by omega, hc⟩
      · exact ⟨(a % 4) * 16 + b / 16, by omega, hc⟩
      · exact ⟨(b % 16) * 4, by omega, hc⟩
  | a :: b :: d :: rest, h, c, hc => by
      have ha : a < 256 := h a (by simp)
      have hb : b < 256 := h b (by simp)
      have hd : d < 256 := h d (by simp)
      simp only [b64EncodeCore, List.mem_cons] at hc
      rcases hc with hc | hc | hc | hc | hc
      · exact ⟨a / 4, by omega, hc⟩
      · exact ⟨(a % 4) * 16 + b / 16, by omega, hc⟩
      · exact ⟨(b % 16) * 4 + d / 64, by omega, hc⟩
      · exact ⟨d % 64, by omega, hc⟩
      · exact b64EncodeCore_chars rest
          (fun x hx => h x (by simp [hx])) c hc

/-- The index-level base64 decoder inverts the encoder on byte lists. -/
theorem b64DecodeCore_encodeCore :
    ∀ (bs : List Nat), (∀ b ∈ bs, b < 256) →
      b64DecodeCore ((b64EncodeCore bs).map b64Index) = some bs
  | [], _ => rfl
  | [a], h => by
      have ha : a < 256 := h a (by simp)
      have h0 := (b64Char_spec (a / 4) (by omega)).2.2.2
      have h1 := (b64Char_spec ((a % 4) * 16) (by omega)).2.2.2
      simp only [b64EncodeCore, List.map_cons, List.map_nil, h0, h1,
        b64DecodeCore]
      have : a / 4 * 4 + (a % 4) * 16 / 16 = a := by omega
      rw [this]
  | [a, b], h => by
      have ha : a < 256 := h a (by simp)
      have hb : b < 256 := h b (by simp)
      have h0 := (b64Char_spec (a / 4) (by omega)).2.2.2
      have h1 := (b64Char_spec ((a % 4) * 16 + b / 16) (by omega)).2.2.2
      have h2 := (b64Char_spec ((b % 16) * 4) (by omega)).2.2.2
      simp only [b64EncodeCore, List.map_cons, List.map_nil, h0, h1, h2,
        b64DecodeCore]
      have e0 : a / 4 * 4 + ((a % 4) * 16 + b / 16) / 16 = a := by omega
      have e1 : ((a % 4) * 16 + b / 16) % 16 * 16 + (b % 16) * 4 / 4 = b := by
        omega
      rw [e0, e1]
  | a :: b :: d :: rest, h => by
      have ha : a < 256 := h a (by simp)
      have hb : b < 256 := h b (by simp)
      have hd : d < 256 := h d (by simp)
      have h0 := (b64Char_spec (a / 4) (by omega)).2.2.2
      have h1 := (b64Char_spec ((a % 4) * 16 + b / 16) (by omega)).2.2.2
      have h2 := (b64Char_spec ((b % 16) * 4 + d / 64) (by omega)).2.2.2
      have h3 := (b64Char_spec (d % 64) (by omega)).2.2.2
      have hrec := b64DecodeCore_encodeCore rest
        (fun x hx => h x (by simp [hx]))
      simp only [b64EncodeCore, List.map_cons, h0, h1, h2, h3, b64DecodeCore,
        hrec, Option.map_some]
      have e0 : a / 4 * 4 + ((a % 4) * 16 + b / 16) / 16 = a := by omega
      have e1 : ((a % 4) * 16 + b / 16) % 16 * 16 +
          ((b % 16) * 4 + d / 64) / 4 = b := by omega
      have e2 : ((b % 16) * 4 + d / 64) % 4 * 64 + d % 64 = d := by omega
      rw [e0, e1, e2]
      rfl

/-- Length of the unpadded base64 encoding (`0`, `2`, `3` extra characters
for `0`, `1`, `2` trailing bytes). -/
theorem b64EncodeCore_length :
    ∀ bs : List Nat, (b64EncodeCore bs).length =
      bs.length / 3 * 4 + (bs.length % 3 + (bs.length % 3 + 1) / 2)
  | [] => by simp [b64EncodeCore]
  | [_] => by simp [b64EncodeCore]
  | [_, _] => by simp [b64EncodeCore]
  | _ :: _ :: _ :: rest => by
      simp only [b64EncodeCore, List.length_cons,
        b64EncodeCore_length rest]
      omega

/-- Dropping trailing `=` from an `=`-free list is the identity. -/
theorem dropTrailingEq_no_eq {s : List Char} (h : ∀ c ∈ s, c ≠ '=') :
    dropTrailingEq s = s := by
  unfold dropTrailingEq
  split
  · next r heq =>
      have : '=' ∈ s := by
        rw [← List.mem_reverse, heq]; simp
      exact absurd rfl (h '=' this)
  · next r heq =>
      have : '=' ∈ s := by
        rw [← List.mem_reverse, heq]; simp
      exact absurd rfl (h '=' this)
  · rfl

/-- Dropping trailing `=` undoes up to two appended padding characters. -/
theorem dropTrailingEq_append_replicate {s : List Char} {p : Nat}
    (hp : p ≤ 2) (h : ∀ c ∈ s, c ≠ '=') :
    dropTrailingEq (s ++ List.replicate p '=') = s := by
  match p, hp with
  | 0, _ => simpa using dropTrailingEq_no_eq h
  | 1, _ =>
      cases hs : s.reverse with
      | nil =>
          have hsnil : s = [] := by
            have := congrArg List.reverse hs
            simpa using this
          subst hsnil
          rfl
      | cons c cs =>
          have hc : c ≠ '=' := by
            apply h
            rw [← List.mem_reverse, hs]; simp
          have hrev : (s ++ List.replicate 1 '=').reverse = '=' :: c :: cs := by
            rw [List.reverse_append, hs]; rfl
          unfold dropTrailingEq
          rw [hrev]
          split
          · next r heq =>
              injection heq with _ heq2
              injection heq2 with heq3 _
              exact absurd heq3 hc
          · next r heq =>
              injection heq with _ heq2
              rw [← heq2, ← hs, List.reverse_reverse]
          · next x hne1 hne2 =>
              exact absurd rfl (hne2 (c :: cs))
  | 2, _ =>
      have hrev : (s ++ List.replicate 2 '=').reverse = '=' :: '=' :: s.reverse := by
        rw [List.reverse_append]; rfl
      unfold dropTrailingEq
      rw [hrev]
      simp only []
      rw [List.reverse_reverse]

/-- `dropWhile` swallows a satisfying replicate prefix. -/
theorem dropWhile_replicate_append (p : Char → Bool) (a : Char) (hp : p a = true)
    (k : Nat) (x : List Char) :
    List.dropWhile p (List.replicate k a ++ x) = List.dropWhile p x := by
  induction k with
  | zero => rfl
  | succ n ih => simp [List.replicate_succ, List.dropWhile_cons, hp, ih]

/-- `dropWhile` is the identity when no element satisfies the predicate. -/
theorem dropWhile_eq_self_of_not {p : Char → Bool} {x : List Char}
    (h : ∀ c ∈ x, p c = false) : List.dropWhile p x = x := by
  cases x with
  | nil => rfl
  | cons c cs =>
      rw [List.dropWhile_cons_of_neg]
      simp [h c (by simp)]

/-- Stripping trailing `=` removes any appended run of `=`. -/
theorem stripTrailEq_append_replicate (s : List Char) (k : Nat) :
    stripTrailEq (s ++ List.replicate k '=') = stripTrailEq s := by
  unfold stripTrailEq
  rw [List.reverse_append, List.reverse_replicate,
    dropWhile_replicate_append _ _ (by decide)]

/-- Stripping trailing `=` from an `=`-free list is the identity. -/
theorem stripTrailEq_no_eq {s : List Char} (h : ∀ c ∈ s, c ≠ '=') :
    stripTrailEq s = s := by
  unfold stripTrailEq
  rw [dropWhile_eq_self_of_not, List.reverse_reverse]
  intro c hc
  simp only [decide_eq_false_iff_not]
  exact h c (List.mem_reverse.mp hc)

/-- The base64 leg round-trips: forgiving decode inverts padded encode on
byte lists. -/
theorem atobBytes_btoaBytes (bs : List Nat) (h : ∀ b ∈ bs, b < 256) :
    atobBytes (btoaBytes bs) = some bs := by
  have hchars := b64EncodeCore_chars bs h
  have hencNoEq : ∀ c ∈ b64EncodeCore bs, c ≠ '=' := by
    intro c hc
    obtain ⟨i, hi, rfl⟩ := hchars c hc
    exact (b64Char_spec i hi).2.1
  have hencB64 : ∀ c ∈ b64EncodeCore bs, isB64Char c = true := by
    intro c hc
    obtain ⟨i, hi, rfl⟩ := hchars c hc
    exact (b64Char_spec i hi).1
  have hencNoWs : ∀ c ∈ b64EncodeCore bs, isAsciiWs c = false := by
    intro c hc
    obtain ⟨i, hi, rfl⟩ := hchars c hc
    exact (b64Char_spec i hi).2.2.1
  have hlen := b64EncodeCore_length bs
  have hfilter : (btoaBytes bs).filter (fun c => !isAsciiWs c) = btoaBytes bs := by
    apply List.filter_eq_self.mpr
    intro c hc
    unfold btoaBytes at hc
    rcases List.mem_append.mp hc with hc | hc
    · simp [hencNoWs c hc]
    · have : c = '=' := List.eq_of_mem_replicate hc
      subst this; decide
  have hp2 : (3 - bs.length % 3) % 3 ≤ 2 := by omega
  have hdrop : dropTrailingEq (btoaBytes bs) = b64EncodeCore bs :=
    dropTrailingEq_append_replicate hp2 hencNoEq
  have hr : bs.length % 3 = 0 ∨ bs.length % 3 = 1 ∨ bs.length % 3 = 2 := by
    omega
  have hlen4 : (btoaBytes bs).length % 4 = 0 := by
    unfold btoaBytes
    rw [List.length_append, List.length_replicate, hlen]
    rcases hr with h | h | h <;> rw [h] <;> omega
  have hlenNot1 : ¬ (b64EncodeCore bs).length % 4 = 1 := by
    rw [hlen]
    rcases hr with h | h | h <;> rw [h] <;> omega
  have hall : (b64EncodeCore bs).all isB64Char = true :=
    List.all_eq_true.mpr hencB64
  simp only [atobBytes, hfilter, hlen4, if_pos, hdrop, if_true]
  rw [if_neg hlenNot1, if_pos hall]
  exact b64DecodeCore_encodeCore bs h

/-! ## The URL-safe transliteration layer -/

/-- The URL-safe remapping of any base64 alphabet character lands in the
safe token alphabet, is not `=`, and is undone exactly by the restoring
remap of `decompress`. -/
theorem remap_spec : ∀ i, i < 64 →
    safeChar (remapSlash (remapPlus (b64Char i))) = true ∧
    remapSlash (remapPlus (b64Char i)) ≠ '=' ∧
    unremapUnderscore (unremapDash (remapSlash (remapPlus (b64Char i)))) =
      b64Char i := by decide

/-- The unpadded encoder output is non-empty on non-empty input. -/
theorem b64EncodeCore_ne_nil : ∀ {bs : List Nat}, bs ≠ [] →
    b64EncodeCore bs ≠ []
  | [], h => absurd rfl h
  | [_], _ => by simp [b64EncodeCore]
  | [_, _], _ => by simp [b64EncodeCore]
  | _ :: _ :: _ :: _, _ => by simp [b64EncodeCore]

/-- Normal form of `compress` on non-empty input: the remapped unpadded
base64 encoding of the compressed bytes (padding stripped). -/
theorem compress_eq (gzipC : List Nat → List Nat) (x : List Char)
    (hx : x ≠ []) :
    compress gzipC x =
      ((b64EncodeCore ((gzipC (utf8Encode x)).map (· % 256))).map
        (fun c => remapSlash (remapPlus c))) := by
  have hc256 : ∀ b ∈ (gzipC (utf8Encode x)).map (· % 256), b < 256 := by
    intro b hb
    simp only [List.mem_map] at hb
    obtain ⟨y, _, rfl⟩ := hb
    omega
  simp only [compress, if_neg hx, arrayBufferToBase64]
  rw [map_mod256_eq_self hc256]
  unfold btoaBytes
  rw [List.map_append, List.map_append, List.map_replicate,
    List.map_replicate]
  have hpadmap : remapSlash (remapPlus '=') = '=' := rfl
  rw [hpadmap, stripTrailEq_append_replicate]
  simp only [List.map_map, Function.comp_def]
  apply stripTrailEq_no_eq
  intro c hc
  simp only [List.mem_map, Function.comp] at hc
  obtain ⟨d, hd, rfl⟩ := hc
  obtain ⟨i, hi, rfl⟩ :=
    b64EncodeCore_chars _ hc256 d hd
  exact (remap_spec i hi).2.1

/-- A map by a function that fixes every element of a list is the
identity. -/
theorem map_eq_self_of {f : Char → Char} :
    ∀ {l : List Char}, (∀ c ∈ l, f c = c) → l.map f = l
  | [], _ => rfl
  | c :: cs, h => by
      rw [List.map_cons, h c (by simp),
        map_eq_self_of (fun d hd => h d (by simp [hd]))]

/-- Full codec round trip, gzip stage abstracted: if the gzip decoder
inverts the gzip encoder on the UTF-8 bytes of `x` (hypothesis `hgz`), the
gzip encoder emits at least one byte (hypothesis `hne`, true of every real
gzip stream, which starts with a 10-byte header), and `x` does not start
with U+FEFF (hypothesis `hbom`; a leading byte-order mark is stripped by
the text-decode stage), then `decompress` inverts `compress` on `x`. -/
theorem decompress_compress (gzipC gzipD : List Nat → List Nat) (x : List Char)
    (hgz : gzipD ((gzipC (utf8Encode x)).map (· % 256)) = utf8Encode x)
    (hne : gzipC (utf8Encode x) ≠ [])
    (hbom : x.head? ≠ some (Char.ofNat 0xFEFF)) :
    decompress gzipD (compress gzipC x) = some x := by
  by_cases hx : x = []
  · subst hx
    simp [compress, decompress]
  · rw [compress_eq gzipC x hx]
    have hc256 : ∀ b ∈ (gzipC (utf8Encode x)).map (· % 256), b < 256 := by
      intro b hb
      simp only [List.mem_map] at hb
      obtain ⟨y, _, rfl⟩ := hb
      omega
    have hchars := b64EncodeCore_chars _ hc256
    have hcompne : (gzipC (utf8Encode x)).map (· % 256) ≠ [] := by
      simp only [ne_eq, List.map_eq_nil_iff]
      exact hne
    have hencne := b64EncodeCore_ne_nil hcompne
    have htokne :
        (b64EncodeCore ((gzipC (utf8Encode x)).map (· % 256))).map
          (fun c => remapSlash (remapPlus c)) ≠ [] := by
      simp only [ne_eq, List.map_eq_nil_iff]
      exact hencne
    unfold decompress
    rw [if_neg htokne]
    have hunmap :
        (((b64EncodeCore ((gzipC (utf8Encode x)).map (· % 256))).map
            (fun c => remapSlash (remapPlus c))).map unremapDash).map
          unremapUnderscore =
        b64EncodeCore ((gzipC (utf8Encode x)).map (· % 256)) := by
      simp only [List.map_map, Function.comp_def]
      apply map_eq_self_of
      intro c hc
      obtain ⟨i, hi, rfl⟩ := hchars c hc
      exact (remap_spec i hi).2.2
    have hpad :
        padTo4 (b64EncodeCore ((gzipC (utf8Encode x)).map (· % 256))) =
        btoaBytes ((gzipC (utf8Encode x)).map (· % 256)) := by
      unfold padTo4 btoaBytes
      congr 1
      rw [b64EncodeCore_length]
      have hr : ((gzipC (utf8Encode x)).map (· % 256)).length % 3 = 0 ∨
          ((gzipC (utf8Encode x)).map (· % 256)).length % 3 = 1 ∨
          ((gzipC (utf8Encode x)).map (· % 256)).length % 3 = 2 := by omega
      rcases hr with h | h | h <;> rw [h] <;> congr 1 <;> omega
    unfold decodeTokenBytes base64ToArrayBuffer
    rw [hunmap, hpad, atobBytes_btoaBytes _ hc256]
    dsimp only
    rw [hgz, map_mod256_eq_self (utf8Encode_lt_256 x),
      stripBom_utf8Encode hbom, utf8Decode_utf8Encode]

/-- Decoding indices four at a time succeeds on every length not congruent
to 1 mod 4. -/
theorem b64DecodeCore_isSome :
    ∀ l : List Nat, l.length % 4 ≠ 1 → (b64DecodeCore l).isSome = true
  | [], _ => rfl
  | [_], h => by simp at h
  | [_, _], _ => rfl
  | [_, _, _], _ => rfl
  | _ :: _ :: _ :: _ :: rest, h => by
      have hr : rest.length % 4 ≠ 1 := by
        simp only [List.length_cons] at h
        omega
      have := b64DecodeCore_isSome rest hr
      simpa [b64DecodeCore] using this

/-- The restoring remap sends every safe-alphabet character into the base64
alphabet. -/
theorem safe_unremap {c : Char} (h : safeChar c = true) :
    unremapUnderscore (unremapDash c) ∈ b64Alphabet := by
  have hA : ('A' : Char).toNat = 65 := rfl
  have hZ : ('Z' : Char).toNat = 90 := rfl
  unfold safeChar at h
  simp only [Bool.or_eq_true, Bool.and_eq_true, decide_eq_true_eq] at h
  have halpha : b64Alphabet.map Char.toNat =
      [65, 66, 67, 68, 69, 70, 71, 72, 73, 74, 75, 76, 77, 78, 79, 80, 81,
       82, 83, 84, 85, 86, 87, 88, 89, 90, 97, 98, 99, 100, 101, 102, 103,
       104, 105, 106, 107, 108, 109, 110, 111, 112, 113, 114, 115, 116, 117,
       118, 119, 120, 121, 122, 48, 49, 50, 51, 52, 53, 54, 55, 56, 57, 43,
       47] := by decide
  have hmem_of_toNat : ∀ {d : Char} {l : List Char},
      d.toNat ∈ l.map Char.toNat → d ∈ l := by
    intro d l
    induction l with
    | nil => simp
    | cons e es ih =>
        intro hd
        simp only [List.map_cons, List.mem_cons] at hd ⊢
        rcases hd with hd | hd
        · exact Or.inl (char_toNat_inj hd)
        · exact Or.inr (ih hd)
  have hfix : ∀ d : Char, (48 ≤ d.toNat ∧ d.toNat ≤ 57) ∨
      (65 ≤ d.toNat ∧ d.toNat ≤ 90) ∨ (97 ≤ d.toNat ∧ d.toNat ≤ 122) →
      unremapUnderscore (unremapDash d) ∈ b64Alphabet := by
    intro d hd
    have hd1 : d ≠ '-' := by
      intro he
      subst he
      revert hd
      decide
    have hd2 : d ≠ '_' := by
      intro he
      subst he
      revert hd
      decide
    have e1 : unremapDash d = d := by simp [unremapDash, hd1]
    have e2 : unremapUnderscore d = d := by simp [unremapUnderscore, hd2]
    rw [e1, e2]
    apply hmem_of_toNat
    rw [halpha]
    simp only [List.mem_cons, List.not_mem_nil, or_false]
    omega
  rcases h with (((hr | hr) | hr) | hr) | hr
  · obtain ⟨h1, h2⟩ := hr
    rw [Char.le_def] at h1 h2
    exact hfix c (Or.inr (Or.inl ⟨h1, h2⟩))
  · obtain ⟨h1, h2⟩ := hr
    rw [Char.le_def] at h1 h2
    exact hfix c (Or.inr (Or.inr ⟨h1, h2⟩))
  · obtain ⟨h1, h2⟩ := hr
    rw [Char.le_def] at h1 h2
    exact hfix c (Or.inl ⟨h1, h2⟩)
  · subst hr
    decide
  · subst hr
    decide

/-- Facts about every base64-alphabet character, by enumeration. -/
theorem b64Alphabet_facts : ∀ c ∈ b64Alphabet,
    isB64Char c = true ∧ isAsciiWs c = false ∧ c ≠ '=' := by decide

/-- `atob` succeeds on an alphabet-only string padded with `=` to a
multiple of 4, provided the unpadded length is not 1 mod 4. -/
theorem atobBytes_padded_isSome (m : List Char)
    (hmal : ∀ c ∈ m, c ∈ b64Alphabet) (hlen : m.length % 4 ≠ 1) :
    (atobBytes (m ++ List.replicate ((4 - m.length % 4) % 4) '=')).isSome = true := by
  have hmNoEq : ∀ c ∈ m, c ≠ '=' :=
    fun c hc => (b64Alphabet_facts c (hmal c hc)).2.2
  have hmNoWs : ∀ c ∈ m, isAsciiWs c = false :=
    fun c hc => (b64Alphabet_facts c (hmal c hc)).2.1
  have hmB64 : ∀ c ∈ m, isB64Char c = true :=
    fun c hc => (b64Alphabet_facts c (hmal c hc)).1
  have hp2 : (4 - m.length % 4) % 4 ≤ 2 := by omega
  have hfilter : (m ++ List.replicate ((4 - m.length % 4) % 4) '=').filter
      (fun c => !isAsciiWs c) = m ++ List.replicate ((4 - m.length % 4) % 4) '=' := by
    apply List.filter_eq_self.mpr
    intro c hc
    rcases List.mem_append.mp hc with hc | hc
    · simp [hmNoWs c hc]
    · have : c = '=' := List.eq_of_mem_replicate hc
      subst this; decide
  have hlen4 : (m ++ List.replicate ((4 - m.length % 4) % 4) '=').length % 4 = 0 := by
    rw [List.length_append, List.length_replicate]
    omega
  simp only [atobBytes, hfilter, hlen4, if_pos,
    dropTrailingEq_append_replicate hp2 hmNoEq, if_true]
  rw [if_neg hlen, if_pos (List.all_eq_true.mpr hmB64)]
  apply b64DecodeCore_isSome
  rw [List.length_map]
  exact hlen

/-- The alphabet-and-padding stage of `decompress` succeeds on every
safe-alphabet token whose length is not 1 mod 4. -/
theorem decodeTokenBytes_isSome (t : List Char)
    (hsafe : ∀ c ∈ t, safeChar c = true) (hlen : t.length % 4 ≠ 1) :
    (decodeTokenBytes t).isSome = true := by
  have hmal : ∀ c ∈ (t.map unremapDash).map unremapUnderscore,
      c ∈ b64Alphabet := by
    intro c hc
    simp only [List.map_map, Function.comp_def, List.mem_map] at hc
    obtain ⟨d, hd, rfl⟩ := hc
    exact safe_unremap (hsafe d hd)
  have hmlen : ((t.map unremapDash).map unremapUnderscore).length = t.length := by
    simp
  unfold decodeTokenBytes base64ToArrayBuffer padTo4
  exact atobBytes_padded_isSome ((t.map unremapDash).map unremapUnderscore)
    hmal (by rw [hmlen]; exact hlen)

/-! ## Claims about the content codec -/

/-- Counterexample to C1 as stated: the text-decode stage of `decompress`
(`Response.text()`, WHATWG UTF-8 decode) strips a leading byte-order mark,
so for the string `U+FEFF a` the round trip returns `a`, not the input.
The gzip stage is instantiated with the identity, which round-trips on
these bytes, so the loss is due solely to the BOM stripping. -/
theorem C1_counterexample :
    decompress (fun b => b)
      (compress (fun b => b) (Char.ofNat 0xFEFF :: 'a' :: [])) =
      some ['a'] ∧
    (['a'] : List Char) ≠ Char.ofNat 0xFEFF :: 'a' :: [] :=
  ⟨by decide, by decide⟩

/-- C1 as amended: for every string `x` not beginning with U+FEFF (empty,
single-character, multi-byte Unicode included), `decompress(compress(x))`
returns exactly `x`; a leading U+FEFF is stripped by the text-decode
stage.  The gzip stage is environment-provided (`CompressionStream`); the
theorem holds for every pair of gzip functions that round-trips on the
UTF-8 bytes of `x` and emits a non-empty compressed stream (both true of
gzip itself). -/
theorem C1_roundtrip (gzipC gzipD : List Nat → List Nat) (x : List Char)
    (hgz : gzipD ((gzipC (utf8Encode x)).map (· % 256)) = utf8Encode x)
    (hne : gzipC (utf8Encode x) ≠ [])
    (hbom : x.head? ≠ some (Char.ofNat 0xFEFF)) :
    decompress gzipD (compress gzipC x) = some x :=
  decompress_compress gzipC gzipD x hgz hne hbom

/-- Witness for C1 at the concrete multi-byte string `hé😀` with the
identity gzip stage. -/
theorem C1_roundtrip_witness :
    decompress (fun b => b) (compress (fun b => b) "hé😀".toList) =
      some "hé😀".toList :=
  C1_roundtrip (fun b => b) (fun b => b) "hé😀".toList (by decide) (by decide)
    (by decide)

/-- C10: the binary-to-text helpers are mutually inverse on every byte
sequence. -/
theorem C10_base64_roundtrip (b : List Nat) (h : ∀ x ∈ b, x < 256) :
    base64ToArrayBuffer (arrayBufferToBase64 b) = some b := by
  unfold arrayBufferToBase64 base64ToArrayBuffer
  rw [map_mod256_eq_self h]
  exact atobBytes_btoaBytes b h

/-- Witness for C10 at a concrete byte sequence exercising `+`, `/` and
padding. -/
theorem C10_base64_roundtrip_witness :
    base64ToArrayBuffer (arrayBufferToBase64 [0, 251, 255, 77, 3]) =
      some [0, 251, 255, 77, 3] :=
  C10_base64_roundtrip [0, 251, 255, 77, 3] (by decide)

/-- C9: every character of `compress(x)` is in the URL-fragment-safe
alphabet and is not `=`. -/
theorem C9_safe_alphabet (gzipC : List Nat → List Nat) (x : List Char)
    (c : Char) (hc : c ∈ compress gzipC x) :
    safeChar c = true ∧ c ≠ '=' := by
  by_cases hx : x = []
  · subst hx
    simp [compress] at hc
  · rw [compress_eq gzipC x hx] at hc
    simp only [List.mem_map] at hc
    obtain ⟨d, hd, rfl⟩ := hc
    have hc256 : ∀ b ∈ (gzipC (utf8Encode x)).map (· % 256), b < 256 := by
      intro b hb
      simp only [List.mem_map] at hb
      obtain ⟨y, _, rfl⟩ := hb
      omega
    obtain ⟨i, hi, rfl⟩ := b64EncodeCore_chars _ hc256 d hd
    exact ⟨(remap_spec i hi).1, (remap_spec i hi).2.1⟩

/-- Witness for C9 at the first character of a concrete token. -/
theorem C9_safe_alphabet_witness :
    safeChar 'a' = true ∧ 'a' ≠ '=' :=
  C9_safe_alphabet (fun b => b) "hello".toList 'a' (by decide)

/-- Counterexample to C5 as stated: the token `A` consists only of
safe-alphabet characters, yet the alphabet-and-padding stage of
`decompress` fails on it (padding `A` to `A===` leaves the non-alphabet
character `=` after forgiving-base64 removes at most two trailing `=`), so
`decompress` throws for every gzip stage. -/
theorem C5_counterexample :
    (∀ c ∈ ("A".toList : List Char), safeChar c = true) ∧
    decodeTokenBytes "A".toList = none ∧
    decompress (fun b => b) "A".toList = none := by
  refine ⟨by decide, by decide, by decide⟩

/-- C5 as amended: for every safe-alphabet token whose length is not
congruent to 1 mod 4 (lengths 1 mod 4 are rejected by the base64 stage and
are never produced by `compress`), the alphabet-and-padding stage of
`decompress` succeeds; failures can then only come from the later
decompression stage. -/
theorem C5_padding_amended (t : List Char)
    (hsafe : ∀ c ∈ t, safeChar c = true) (hlen : t.length % 4 ≠ 1) :
    (decodeTokenBytes t).isSome = true :=
  decodeTokenBytes_isSome t hsafe hlen

/-- Witness for the amended C5 at concrete tokens of lengths 0, 2, 3 and
4 mod 4. -/
theorem C5_padding_amended_witness :
    (decodeTokenBytes "abcd".toList).isSome = true ∧
    (decodeTokenBytes "ab".toList).isSome = true ∧
    (decodeTokenBytes "a-_".toList).isSome = true ∧
    (decodeTokenBytes ([] : List Char)).isSome = true :=
  ⟨C5_padding_amended "abcd".toList (by decide) (by decide),
   C5_padding_amended "ab".toList (by decide) (by decide),
   C5_padding_amended "a-_".toList (by decide) (by decide),
   C5_padding_amended [] (by decide) (by decide)⟩

/-! ## Sanitizer: tree-level lemmas -/

/-- `Char.ofNat` and `Char.toNat` cancel below the surrogate range. -/
theorem char_toNat_ofNat {n : Nat} (h : n < 0xD800) : (Char.ofNat n).toNat = n := by
  unfold Char.ofNat
  split
  · rfl
  · next hv => exact absurd (Or.inl h) hv

/-- Lower-casing maps only uppercase letters, so it cannot produce `<`. -/
theorem lowerChar_eq_lt {c : Char} (h : lowerChar c = '<') : c = '<' := by
  unfold lowerChar at h
  split_ifs at h with hc
  · obtain ⟨h1, h2⟩ := hc
    rw [Char.le_def] at h1 h2
    have h1' : 65 ≤ c.toNat := h1
    have h2' : c.toNat ≤ 90 := h2
    have hv : (Char.ofNat (c.toNat + 32)).toNat = c.toNat + 32 :=
      char_toNat_ofNat (by omega)
    have h60 : ('<' : Char).toNat = 60 := rfl
    have hcontra := congrArg Char.toNat h
    rw [hv, h60] at hcontra
    omega
  · exact h

/-- Membership survives lower-casing backwards for `<`. -/
theorem mem_lt_of_mem_lower {s : List Char} (h : '<' ∈ lowerStr s) : '<' ∈ s := by
  unfold lowerStr at h
  simp only [List.mem_map] at h
  obtain ⟨d, hd, hdeq⟩ := h
  rwa [lowerChar_eq_lt hdeq] at hd

/-- Escaped text contains no `<`. -/
theorem not_lt_mem_escText (s : List Char) : '<' ∉ escText s := by
  intro h
  unfold escText at h
  simp only [List.mem_flatMap] at h
  obtain ⟨c, _, hc⟩ := h
  unfold escTextChar at hc
  split_ifs at hc with h1 h2 h3 h4 <;> simp_all
  exact h3 hc.symm

mutual

/-- The rewrite stage produces only allow-listed, attribute-free elements
(forest version). -/
theorem sanitizedF_cleanChildren (f : DForest) :
    sanitizedF (cleanChildren f) = true := by
  cases f with
  | nil => rfl
  | cons n rest =>
      simp only [cleanChildren, sanitizedF, Bool.and_eq_true]
      exact ⟨sanitizedN_cleanChild n, sanitizedF_cleanChildren rest⟩

/-- The rewrite stage produces only allow-listed, attribute-free elements
(single-child version). -/
theorem sanitizedN_cleanChild (n : DNode) : sanitizedN (cleanChild n) = true := by
  cases n with
  | text s => rfl
  | elem t a kids =>
      have hdiv : sanitizedN (DNode.elem "div".toList []
          (cleanChildren kids)) = true := by
        simp only [sanitizedN, Bool.and_eq_true]
        refine ⟨⟨by decide, by decide⟩, sanitizedF_cleanChildren kids⟩
      by_cases h : lowerStr t ∈ ALLOWED_TAGS
      · simp only [cleanChild, if_pos h, sanitizedN, sanitizedF,
          Bool.and_eq_true]
        refine ⟨⟨by simp [h], by decide⟩, ?_⟩
        exact ⟨⟨⟨by decide, by decide⟩, sanitizedF_cleanChildren kids⟩, trivial⟩
      · simp only [cleanChild, if_neg h]
        exact hdiv

end

mutual

/-- The rewrite stage preserves the in-order text-node sequence (forest
version). -/
theorem textNodesF_cleanChildren (f : DForest) :
    textNodesF (cleanChildren f) = textNodesF f := by
  cases f with
  | nil => rfl
  | cons n rest =>
      simp only [cleanChildren, textNodesF, textNodesN_cleanChild n,
        textNodesF_cleanChildren rest]

/-- The rewrite stage preserves the in-order text-node sequence
(single-child version). -/
theorem textNodesN_cleanChild (n : DNode) :
    textNodesN (cleanChild n) = textNodesN n := by
  cases n with
  | text s => rfl
  | elem t a kids =>
      by_cases h : lowerStr t ∈ ALLOWED_TAGS <;>
        simp [cleanChild, h, textNodesN, textNodesF,
          textNodesF_cleanChildren kids]

end

/-! ## Substring lemmas -/

/-- `startsWithL` is exact-prefix testing. -/
theorem startsWithL_iff : ∀ (p s : List Char),
    startsWithL p s = true ↔ ∃ r, s = p ++ r
  | [], s => by simp [startsWithL]
  | p :: ps, [] => by simp [startsWithL]
  | p :: ps, c :: cs => by
      simp only [startsWithL, Bool.and_eq_true, decide_eq_true_eq]
      constructor
      · rintro ⟨rfl, h⟩
        obtain ⟨r, rfl⟩ := (startsWithL_iff ps cs).mp h
        exact ⟨r, rfl⟩
      · rintro ⟨r, hr⟩
        injection hr with h1 h2
        exact ⟨h1.symm, (startsWithL_iff ps cs).mpr ⟨r, h2⟩⟩

/-- `hasSub` is substring occurrence. -/
theorem hasSub_iff : ∀ (p s : List Char),
    hasSub p s = true ↔ ∃ l r, s = l ++ p ++ r
  | p, [] => by
      simp only [hasSub, startsWithL_iff]
      constructor
      · rintro ⟨r, hr⟩
        exact ⟨[], r, by simpa using hr⟩
      · rintro ⟨l, r, hlr⟩
        have h1 : l = [] ∧ p ++ r = [] := by
          have := hlr.symm
          rw [List.append_assoc] at this
          exact List.append_eq_nil.mp this
        exact ⟨r, by rw [← h1.2]⟩
  | p, c :: rest => by
      simp only [hasSub, Bool.or_eq_true, startsWithL_iff, hasSub_iff p rest]
      constructor
      · rintro (⟨r, hr⟩ | ⟨l, r, hlr⟩)
        · exact ⟨[], r, by simpa using hr⟩
        · exact ⟨c :: l, r, by simp [hlr]⟩
      · rintro ⟨l, r, hlr⟩
        cases l with
        | nil => exact Or.inl ⟨r, by simpa using hlr⟩
        | cons d ds =>
            rw [List.cons_append, List.cons_append] at hlr
            injection hlr with h1 h2
            exact Or.inr ⟨ds, r, h2⟩

/-- An occurrence of an extended pattern contains an occurrence of its
prefix. -/
theorem hasSub_of_hasSub_append {p q s : List Char}
    (h : hasSub (p ++ q) s = true) : hasSub p s = true := by
  obtain ⟨l, r, rfl⟩ := (hasSub_iff _ _).mp h
  apply (hasSub_iff _ _).mpr
  exact ⟨l, q ++ r, by simp [List.append_assoc]⟩

/-! ## Guardedness of serialized sanitized markup -/

/-- Unfolding: a guarded `<` window. -/
theorem guarded_cons_lt (y z : Char) (r : List Char) :
    guarded ('<' :: y :: z :: r) = (!(y = 's' && z = 'c') && guarded (y :: z :: r)) := rfl

/-- Unfolding: a `<` with no two following characters is unguarded. -/
theorem guarded_lt_one : guarded ['<'] = false := rfl

/-- Unfolding: a `<` with one following character is unguarded. -/
theorem guarded_lt_two (y : Char) : guarded ['<', y] = false := rfl

/-- Unfolding: a non-`<` head does not affect guardedness. -/
theorem guarded_cons_ne {x : Char} (r : List Char) (hx : x ≠ '<') :
    guarded (x :: r) = guarded r := by
  unfold guarded
  rw [if_neg hx]
  cases r <;> rfl

/-- Guardedness is closed under concatenation. -/
theorem guarded_append {a b : List Char} (ha : guarded a = true)
    (hb : guarded b = true) : guarded (a ++ b) = true := by
  induction a with
  | nil => simpa using hb
  | cons x ts IH =>
      by_cases hx : x = '<'
      · subst hx
        cases ts with
        | nil => rw [guarded_lt_one] at ha; exact absurd ha (by simp)
        | cons y us =>
            cases us with
            | nil => rw [guarded_lt_two] at ha; exact absurd ha (by simp)
            | cons z r =>
                rw [guarded_cons_lt, Bool.and_eq_true] at ha
                rw [show ('<' :: y :: z :: r) ++ b = '<' :: y :: z :: (r ++ b)
                  from rfl, guarded_cons_lt, Bool.and_eq_true]
                exact ⟨ha.1, IH ha.2⟩
      · rw [guarded_cons_ne _ hx] at ha
        rw [show (x :: ts) ++ b = x :: (ts ++ b) from rfl,
          guarded_cons_ne _ hx]
        exact IH ha

/-- Lists without `<` are guarded. -/
theorem guarded_of_no_lt {s : List Char} (h : '<' ∉ s) : guarded s = true := by
  induction s with
  | nil => rfl
  | cons x r IH =>
      have hx : x ≠ '<' := fun he => h (by rw [he]; exact List.mem_cons_self _ _)
      rw [guarded_cons_ne _ hx]
      exact IH (fun hm => h (List.mem_cons_of_mem _ hm))

/-- A list containing the window `<sc` is not guarded. -/
theorem guarded_decomp_false :
    ∀ (l : List Char) (r : List Char),
      guarded (l ++ '<' :: 's' :: 'c' :: r) = false
  | [], r => by
      rw [List.nil_append, guarded_cons_lt]
      simp
  | x :: ls, r => by
      by_cases hx : x = '<'
      · subst hx
        cases ls with
        | nil =>
            rw [show ('<' :: []) ++ '<' :: 's' :: 'c' :: r =
              '<' :: '<' :: 's' :: 'c' :: r from rfl, guarded_cons_lt]
            have := guarded_decomp_false [] r
            rw [List.nil_append] at this
            rw [this]
            simp
        | cons y ms =>
            cases ms with
            | nil =>
                rw [show ('<' :: [y]) ++ '<' :: 's' :: 'c' :: r =
                  '<' :: y :: '<' :: 's' :: 'c' :: r from rfl, guarded_cons_lt]
                have := guarded_decomp_false [y] r
                rw [show [y] ++ '<' :: 's' :: 'c' :: r =
                  y :: '<' :: 's' :: 'c' :: r from rfl] at this
                rw [this]
                simp
            | cons z ns =>
                rw [show ('<' :: y :: z :: ns) ++ '<' :: 's' :: 'c' :: r =
                  '<' :: y :: z :: (ns ++ '<' :: 's' :: 'c' :: r) from rfl,
                  guarded_cons_lt]
                have := guarded_decomp_false (y :: z :: ns) r
                rw [show (y :: z :: ns) ++ '<' :: 's' :: 'c' :: r =
                  y :: z :: (ns ++ '<' :: 's' :: 'c' :: r) from rfl] at this
                rw [this]
                simp
      · rw [show (x :: ls) ++ '<' :: 's' :: 'c' :: r =
          x :: (ls ++ '<' :: 's' :: 'c' :: r) from rfl, guarded_cons_ne _ hx]
        exact guarded_decomp_false ls r

/-- A guarded list has no `<sc` substring. -/
theorem hasSub_lsc_of_guarded {s : List Char} (hg : guarded s = true) :
    hasSub ['<', 's', 'c'] s = false := by
  cases hh : hasSub ['<', 's', 'c'] s
  · rfl
  · obtain ⟨l, r, heq⟩ := (hasSub_iff _ _).mp hh
    rw [heq, List.append_assoc,
      show ['<', 's', 'c'] ++ r = '<' :: 's' :: 'c' :: r from rfl,
      guarded_decomp_false l r] at hg
    exact absurd hg (by simp)

/-- Serialized open and close tags of every allow-listed tag are guarded
(no allow-listed tag name begins with `sc`), by enumeration. -/
theorem allowed_tag_guarded : ∀ t ∈ ALLOWED_TAGS,
    guarded (lowerStr ('<' :: t ++ ['>'])) = true ∧
    guarded (lowerStr ('<' :: '/' :: t ++ ['>'])) = true := by decide

mutual

/-- Serializing a sanitized forest yields guarded markup (forest
version). -/
theorem guarded_serializeF (f : DForest) (hf : sanitizedF f = true) :
    guarded (lowerStr (serializeF f)) = true := by
  cases f with
  | nil => rfl
  | cons n rest =>
      rw [sanitizedF, Bool.and_eq_true] at hf
      rw [serializeF]
      unfold lowerStr
      rw [List.map_append]
      exact guarded_append (guarded_serializeN n hf.1)
        (guarded_serializeF rest hf.2)

/-- Serializing a sanitized node yields guarded markup (node version). -/
theorem guarded_serializeN (n : DNode) (hn : sanitizedN n = true) :
    guarded (lowerStr (serializeN n)) = true := by
  cases n with
  | text s =>
      apply guarded_of_no_lt
      intro h
      exact not_lt_mem_escText s (mem_lt_of_mem_lower h)
  | elem t attrs kids =>
      rw [sanitizedN, Bool.and_eq_true, Bool.and_eq_true] at hn
      obtain ⟨⟨ht, hattrs⟩, hkids⟩ := hn
      rw [decide_eq_true_eq] at ht
      cases attrs with
      | cons a as => exact absurd hattrs (by simp [List.isEmpty])
      | nil =>
          have hser : serializeN (DNode.elem t [] kids) =
              ('<' :: t ++ ['>']) ++
                (if t ∈ VOID_TAGS then []
                 else serializeF kids ++ ('<' :: '/' :: t ++ ['>'])) := by
            simp [serializeN, List.append_assoc]
          rw [hser]
          unfold lowerStr
          rw [List.map_append]
          apply guarded_append (allowed_tag_guarded t ht).1
          by_cases hv : t ∈ VOID_TAGS
          · rw [if_pos hv]
            rfl
          · rw [if_neg hv, List.map_append]
            exact guarded_append (guarded_serializeF kids hkids)
              (allowed_tag_guarded t ht).2

end

/-! ## Claims about the sanitizer -/

/-- C2: for every parser behaviour and every input string, the tree
`sanitize` serializes (the cleaned body container) contains only elements
whose tag is in the fixed allow-list, each carrying zero attributes. -/
theorem C2_allowlist_invariant (parse : List Char → DNode) (html : List Char) :
    sanitizedN (cleanNode (parse (prefilter html))) = true := by
  unfold cleanNode
  simp only [sanitizedN, Bool.and_eq_true]
  exact ⟨⟨by decide, by decide⟩, sanitizedF_cleanChildren _⟩

/-- C3: for every parser behaviour and every input containing a
`<script>...</script>` block, the output of `sanitize` contains no
`<script` substring in any casing: every `<` it emits opens an allow-listed
tag (or its end tag), no allow-listed tag starts with `sc`, and `<` in text
is escaped. -/
theorem C3_no_script_substring (parse : List Char → DNode) (x : List Char)
    (h : ∃ pre mid post, x = pre ++ "<script>".toList ++ mid ++
      "</script>".toList ++ post) :
    hasSub "<script".toList (lowerStr (sanitizeStr parse x)) = false := by
  by_cases hx : x = []
  · subst hx
    rfl
  · unfold sanitizeStr
    rw [if_neg hx]
    have hguard : guarded (lowerStr (serializeF
        (childrenOf (cleanNode (parse (prefilter x)))))) = true :=
      guarded_serializeF _ (sanitizedF_cleanChildren _)
    cases hh : hasSub "<script".toList (lowerStr (serializeF
        (childrenOf (cleanNode (parse (prefilter x)))))) with
    | false => rfl
    | true =>
        have h3 : hasSub ['<', 's', 'c'] (lowerStr (serializeF
            (childrenOf (cleanNode (parse (prefilter x)))))) = true :=
          hasSub_of_hasSub_append (q := "ript".toList) hh
        rw [hasSub_lsc_of_guarded hguard] at h3
        exact absurd h3 (by simp)

/-- Witness for C3 at a concrete script-bearing input and the flat-text
parser model. -/
theorem C3_no_script_substring_witness :
    hasSub "<script".toList
      (lowerStr (sanitizeStr flatParse "<script>alert(1)</script>".toList)) =
      false :=
  C3_no_script_substring flatParse "<script>alert(1)</script>".toList
    ⟨[], "alert(1)".toList, [], by decide⟩

/-- Counterexample to C4 as stated: the pre-filter pass deletes the
substring `javascript:` from plain text before parsing, so the text content
of the input `say javascript: now` is not preserved: the parsed input's
only text node is the full input, but the output is `say  now` and does not
contain the input text. -/
theorem C4_counterexample :
    textNodesN (flatParse "say javascript: now".toList) =
      ["say javascript: now".toList] ∧
    sanitizeStr flatParse "say javascript: now".toList = "say  now".toList ∧
    hasSub "say javascript: now".toList
      (sanitizeStr flatParse "say javascript: now".toList) = false := by
  refine ⟨by decide, by decide, by decide⟩

/-- C4 as amended: the tree-rewriting stage of `sanitize` preserves the
in-order sequence of text nodes of the tree parsed from the *pre-filtered*
input exactly; only the textual pre-filter pass can alter text content. -/
theorem C4_text_preserved (parse : List Char → DNode) (x : List Char) :
    textNodesF (childrenOf (cleanNode (parse (prefilter x)))) =
      textNodesF (childrenOf (parse (prefilter x))) :=
  textNodesF_cleanChildren (childrenOf (parse (prefilter x)))

/-- Counterexample to C6: `sanitize` is not idempotent.  `cleanNode` wraps
the processed children of every element in a container `div` that is itself
appended to the output, so each pass adds a `div` layer:
`<b>hi</b>` sanitizes to `<b><div>hi</div></b>`, and sanitizing again gives
`<b><div><div><div>hi</div></div></div></b>`. -/
theorem C6_counterexample :
    sanitizeStr parseCex6 (sanitizeStr parseCex6 "<b>hi</b>".toList) ≠
      sanitizeStr parseCex6 "<b>hi</b>".toList := by decide

/-- C6 as amended: `sanitize` is not idempotent — and the full string
pipeline can even change text content across passes (unwrapping can splice
text so that a pre-filter pattern such as `javascript:` re-forms and is
deleted on the next pass).  What does hold is stability of the tree-rewrite
stage alone: applying `cleanChildren` to an already-cleaned forest again
yields an allow-listed, attribute-free forest with the same text-node
sequence as the once-cleaned forest. -/
theorem C6_amended (f : DForest) :
    sanitizedF (cleanChildren (cleanChildren f)) = true ∧
    textNodesF (cleanChildren (cleanChildren f)) =
      textNodesF (cleanChildren f) :=
  ⟨sanitizedF_cleanChildren _, textNodesF_cleanChildren _⟩

/-- C7 (code bug): on the claim's own scenario the code does not splice
unwrapped children into the parent: `cleanNode` appends its container `div`
itself, so `<table><tr><td>cell</td></tr></table>` (parsed with the implied
`tbody`) yields four nested `div` wrappers around `cell` instead of the
specified bare `cell`. -/
theorem C7_container_div_bug :
    sanitizeStr parseTable "<table><tr><td>cell</td></tr></table>".toList =
      "<div><div><div><div>cell</div></div></div></div>".toList := by decide

/-- C8: `sanitize` is total by construction (every stage of the embedding
is a total function, matching the never-throws contract), and the input
guard returns the empty string on `null`, `undefined`, non-string values
and the empty string. -/
theorem C8_total_input_guard (parse : List Char → DNode) :
    sanitize parse JsValue.nullV = [] ∧
    sanitize parse JsValue.undefV = [] ∧
    sanitize parse JsValue.otherV = [] ∧
    sanitize parse (JsValue.str []) = [] :=
  ⟨rfl, rfl, rfl, rfl⟩

end Linkpad
